import Mathlib

/-!
Formal verification of the spectral graph model core.

This development embeds the two core functions of the repository,
network_transfer_function and network_transfer_cost
(SCFC-spectral-python/spectral_graph.py), as Lean definitions over exact
arithmetic: connectome matrices carry rational entries (every IEEE double is
a rational), analysis is carried out over ℝ and ℂ.  The eigendecomposition
(np.linalg.eig) is an external LAPACK call and is therefore a functional
parameter of the embedding; np.argsort is modelled as a merge sort of the
index list by the real-part key (every property proved below is independent
of the order of ties).  IEEE special values are handled where they occur:
the degree-masking step assigns np.inf to masked degrees, which makes the
normalisation factor 1/(sqrt(inf*inf)+eps) evaluate to exactly 0; the
embedding folds that into the corresponding branch (see normTerm).
-/

namespace Spectrome

/-- Arithmetic mean of a list of reals, as np.mean: sum divided by length
(0/0 = 0 for the empty list under Lean's division convention). -/
noncomputable def listMean (l : List ℝ) : ℝ := l.sum / l.length

/-- Mean-centering of a curve, as the `x - np.mean(x)` steps of
network_transfer_cost (spectral_graph.py lines 306 and 310). -/
noncomputable def meanCenter (l : List ℝ) : List ℝ := l.map fun t => t - listMean l

/-- mag2db (spectral_graph.py lines 88-99), applied elementwise to a curve:
`dby = 20*np.log10(y)`. -/
noncomputable def mag2db (y : List ℝ) : List ℝ := y.map fun t => 20 * Real.logb 10 t

/-- Full discrete convolution, as np.convolve(a, v) with mode 'full':
the result has length M+N-1 and entry k is the sum of a[i]*v[k-i] over the
valid index pairs. -/
noncomputable def convolveFull (a v : List ℝ) : List ℝ :=
  (List.range (a.length + v.length - 1)).map fun k =>
    ∑ i ∈ Finset.range a.length, if i ≤ k then a.getD i 0 * v.getD (k - i) 0 else 0

/-- np.convolve(a, v, mode='same'): the centered slice of the full
convolution of length max(M, N), starting at offset (min(M, N) - 1) / 2. -/
noncomputable def convolveSame (a v : List ℝ) : List ℝ :=
  ((convolveFull a v).drop ((min a.length v.length - 1) / 2)).take (max a.length v.length)

/-- Pearson correlation coefficient, as scipy.stats.pearsonr(x, y)[0]:
covariance of the centered curves over the square root of the product of
their variances. -/
noncomputable def pearsonr (x y : List ℝ) : ℝ :=
  (List.zipWith (fun s t => (s - listMean x) * (t - listMean y)) x y).sum /
    Real.sqrt ((x.map fun s => (s - listMean x) ^ 2).sum *
      (y.map fun t => (t - listMean y) ^ 2).sum)

/-- Row degree of the connectivity matrix (spectral_graph.py line 176):
`rowdegree = np.transpose(np.sum(C, axis=1))`. -/
def rowdegree (C : List (List ℚ)) (i : ℕ) : ℚ := (C.getD i []).sum

/-- Column degree of the connectivity matrix (line 177):
`coldegree = np.sum(C, axis=0)`. -/
def coldegree (C : List (List ℚ)) (j : ℕ) : ℚ := (C.map fun r => r.getD j 0).sum

/-- Combined degree rowdegree + coldegree of one region (line 179). -/
def combinedDegree (C : List (List ℚ)) (i : ℕ) : ℚ := rowdegree C i + coldegree C i

/-- Mean of the combined degrees over all regions,
`np.mean(rowdegree + coldegree)` (line 179). -/
def meanCombinedDegree (C : List (List ℚ)) : ℚ :=
  ((List.range C.length).map fun i => combinedDegree C i).sum / C.length

/-- The degree mask (line 179):
`qind = rowdegree + coldegree < 0.2*np.mean(rowdegree + coldegree)`. -/
def qind (C : List (List ℚ)) (i : ℕ) : Bool :=
  decide (combinedDegree C i < 0.2 * meanCombinedDegree C)

/-- np.spacing(1), the IEEE double machine epsilon 2^-52 (line 196). -/
noncomputable def npSpacingOne : ℝ := 1 / 2 ^ 52

/-- The Laplacian normalisation factor of region i,
`L2 = np.divide(1, np.sqrt(rowdegree*coldegree)+np.spacing(1))`
(line 196) after the masking of lines 180-181, which assigns np.inf to the
row and column degrees of regions with qind set.  For a masked region the
IEEE evaluation is 1/(sqrt(inf*inf)+eps) = 1/inf = 0 exactly; the embedding
accordingly returns 0 on that branch. -/
noncomputable def normTerm (C : List (List ℚ)) (i : ℕ) : ℝ :=
  if qind C i then 0
  else 1 / (Real.sqrt ((rowdegree C i : ℝ) * (coldegree C i : ℝ)) + npSpacingOne)

/-- Delay matrix `Tau = 0.001*D/speed` (line 190). -/
noncomputable def tauMat (D : List (List ℚ)) (speed : ℝ) (i j : ℕ) : ℝ :=
  0.001 * ((D.getD i []).getD j 0 : ℝ) / speed

/-- Delay-weighted connectivity `Cc = C*np.exp(-1j*Tau*w)` (line 193). -/
noncomputable def delayedC (C D : List (List ℚ)) (speed w : ℝ) (i j : ℕ) : ℂ :=
  (((C.getD i []).getD j 0 : ℚ) : ℂ) *
    Complex.exp (-Complex.I * (tauMat D speed i j : ℝ) * (w : ℝ))

/-- The complex Laplacian (lines 195-198):
`L = 0.8*np.identity(nroi) - np.matmul(np.diag(L2), Cc)`, as the list of its
rows; entry (i, j) is 0.8*[i=j] - L2[i]*Cc[i,j]. -/
noncomputable def laplacianMat (C D : List (List ℚ)) (speed w : ℝ) : List (List ℂ) :=
  (List.range C.length).map fun i =>
    (List.range C.length).map fun j =>
      (if i = j then (0.8 : ℂ) else 0) - (normTerm C i : ℝ) * delayedC C D speed w i j

/-- The retained mode count (lines 170, 184-186):
`numsmalleigs = np.round(2/3*C.shape[0])`, then `K = numsmalleigs.astype(int)`
on the default truncated path (use_smalleigs is True).  np.round of the
rational 2N/3 never meets a tie (its fractional part is 0, 1/3 or 2/3), so
rounding to nearest reproduces the float computation for every atlas-sized N. -/
def numsmalleigs (n : ℕ) : ℕ := (round ((2 : ℚ) / 3 * n)).toNat

/-- The sorting permutation `eig_ind = np.argsort(np.real(d))` of line 204:
the index list of d reordered so that the real parts of the indexed
eigenvalues are ascending.  np.argsort is modelled as a merge sort of the
indices by the real-part key. -/
noncomputable def argsortRe (d : List ℂ) : List ℕ :=
  (List.range d.length).mergeSort fun i j =>
    decide ((d.getD i 0).re ≤ (d.getD j 0).re)

/-- The sorted eigenvalue list `eig_val = d[eig_ind]` (line 206). -/
noncomputable def sorted_eig_val (d : List ℂ) : List ℂ :=
  (argsortRe d).map fun i => d.getD i 0

/-- The column-permuted eigenvector list `eig_vec = v[:, eig_ind]`
(line 205), with v the list of eigenvector columns. -/
noncomputable def sorted_eig_vec (d : List ℂ) (v : List (List ℂ)) : List (List ℂ) :=
  (argsortRe d).map fun i => v.getD i []

/-- The seven physiological parameters of network_transfer_function, in the
order of its signature (line 141): tau_e, tau_i, alpha, speed, gei, gii, tauC. -/
structure NTFParams where
  tau_e : ℝ
  tau_i : ℝ
  alpha : ℝ
  speed : ℝ
  gei : ℝ
  gii : ℝ
  tauC : ℝ

/-- Excitatory transfer function (line 217):
`He = np.divide(1/tau_e**2, (1j*w+1/tau_e)**2)`. -/
noncomputable def HeF (w : ℝ) (p : NTFParams) : ℂ :=
  (1 / (p.tau_e : ℂ) ^ 2) / ((Complex.I * (w : ℝ) + 1 / (p.tau_e : ℂ)) ^ 2)

/-- Inhibitory transfer function (line 218):
`Hi = np.divide(gii*1/tau_i**2, (1j*w+1/tau_i)**2)`. -/
noncomputable def HiF (w : ℝ) (p : NTFParams) : ℂ :=
  ((p.gii : ℂ) * (1 / (p.tau_i : ℂ) ^ 2)) / ((Complex.I * (w : ℝ) + 1 / (p.tau_i : ℂ)) ^ 2)

/-- Line 220: `Hed = alpha/tau_e/(1j*w + alpha/tau_e*He)`. -/
noncomputable def HedF (w : ℝ) (p : NTFParams) : ℂ :=
  (p.alpha : ℂ) / (p.tau_e : ℂ) /
    (Complex.I * (w : ℝ) + (p.alpha : ℂ) / (p.tau_e : ℂ) * HeF w p)

/-- Line 221: `Hid = alpha/tau_i/(1j*w + alpha/tau_i*Hi)`. -/
noncomputable def HidF (w : ℝ) (p : NTFParams) : ℂ :=
  (p.alpha : ℂ) / (p.tau_i : ℂ) /
    (Complex.I * (w : ℝ) + (p.alpha : ℂ) / (p.tau_i : ℂ) * HiF w p)

/-- Line 223: `Heid = gei*He*Hi/(1+gei*He*Hi)`. -/
noncomputable def HeidF (w : ℝ) (p : NTFParams) : ℂ :=
  (p.gei : ℂ) * HeF w p * HiF w p / (1 + (p.gei : ℂ) * HeF w p * HiF w p)

/-- Line 224 with a = 0.5 (line 171):
`Htotal = a*Hed + (1-a)/2*Hid + (1-a)/2*Heid`. -/
noncomputable def HtotalF (w : ℝ) (p : NTFParams) : ℂ :=
  (0.5 : ℂ) * HedF w p + (1 - (0.5 : ℂ)) / 2 * HidF w p +
    (1 - (0.5 : ℂ)) / 2 * HeidF w p

/-- The per-mode coupling term (line 226):
`q1 = 1/alpha*tauC*(1j*w + alpha/tauC*He*ev)`, elementwise over the retained
eigenvalues. -/
noncomputable def q1F (w : ℝ) (p : NTFParams) (ev : List ℂ) : List ℂ :=
  ev.map fun lam =>
    1 / (p.alpha : ℂ) * (p.tauC : ℂ) *
      (Complex.I * (w : ℝ) + (p.alpha : ℂ) / (p.tauC : ℂ) * HeF w p * lam)

/-- Maximum of the elementwise magnitudes, `np.abs(q1[:]).max()` (line 227),
with 0 as the value on the empty list. -/
noncomputable def maxAbsList (l : List ℂ) : ℝ := (l.map Complex.abs).foldr max 0

/-- The clamp threshold `qthr = zero_thr*np.abs(q1[:]).max()` with
zero_thr = 0.05 (lines 168, 227). -/
noncomputable def qthrF (q1 : List ℂ) : ℝ := 0.05 * maxAbsList q1

/-- The magnitude-clamped coupling term (lines 228-230):
`magq1 = np.maximum(np.abs(q1), qthr)`, `angq1 = np.angle(q1)`,
`q1 = np.multiply(magq1, np.exp(1j*angq1))`. -/
noncomputable def clampPhase (q1 : List ℂ) : List ℂ :=
  q1.map fun z =>
    ((max (Complex.abs z) (qthrF q1) : ℝ) : ℂ) * Complex.exp (Complex.I * (Complex.arg z : ℝ))

/-- The per-mode frequency response (line 231):
`freqresp = np.divide(Htotal, q1)` with q1 the clamped coupling term. -/
noncomputable def freqrespF (Ht : ℂ) (q1c : List ℂ) : List ℂ := q1c.map fun z => Ht / z

/-- The first four outputs of network_transfer_function (line 243); the
FCmodel output and the error path of its assembly (lines 237-242) are
modelled by FCmodelF and network_transfer_function_checked below. -/
structure NTFOut where
  freqresp : List ℂ
  ev : List ℂ
  Vv : List (List ℂ)
  freqresp_out : List ℂ

/-- network_transfer_function (spectral_graph.py lines 141-243) on its
default truncated path (use_smalleigs is True).  The eigensolver
np.linalg.eig is an external LAPACK routine, supplied here as the parameter
eigf returning the eigenvalue list and the list of eigenvector columns of
the Laplacian.  `eig_ind = np.argsort(np.real(d))` sorts ascending by real
part, both the eigenvalues and the eigenvector columns are permuted by it
and truncated to the first K = numsmalleigs(nroi) entries (lines 202-214);
the per-mode response is assembled on lines 217-231, and the region response
accumulates `freqresp[k] * Vv[:, k]` for k = 1..K-1 (lines 233-235; for
K >= 2 the Python scalar 0 seed broadcasts to the length-nroi vector
embedded here; for K <= 1 the loop body never runs, freqresp_out stays the
Python scalar 0 and line 242 raises before the function returns — that
error path is carried by network_transfer_function_checked below). -/
noncomputable def network_transfer_function
    (eigf : List (List ℂ) → List ℂ × List (List ℂ))
    (C D : List (List ℚ)) (w : ℝ) (p : NTFParams) : NTFOut :=
  let nroi := C.length
  let K := numsmalleigs nroi
  let dv := eigf (laplacianMat C D p.speed w)
  let ev := (sorted_eig_val dv.1).take K
  let Vv := (sorted_eig_vec dv.1 dv.2).take K
  let fr := freqrespF (HtotalF w p) (clampPhase (q1F w p ev))
  let fro := ((List.range K).drop 1).foldl
    (fun acc k => List.zipWith (fun s t => s + t) acc
      ((Vv.getD k []).map fun x => fr.getD k 0 * x))
    (List.replicate nroi 0)
  ⟨fr, ev, Vv, fro⟩

/-- The processed empirical curve of one region (lines 303-306): if the raw
row sums to a nonzero value it is converted to dB and mean-centered,
otherwise it is passed through untouched. -/
noncomputable def alignedEmpirical (qdata : List ℝ) : List ℝ :=
  if qdata.sum ≠ 0 then meanCenter (mag2db qdata) else qdata

/-- The processed model curve of one region (lines 308-310): magnitude of
the complex response row, convolved with the lowpass kernel in 'same' mode,
converted to dB, mean-centered. -/
noncomputable def alignedModel (row : List ℂ) (lpf : List ℝ) : List ℝ :=
  meanCenter (mag2db (convolveSame (row.map Complex.abs) lpf))

/-- The per-region agreement score (lines 311-314): 0 when either processed
curve sums to zero, otherwise the Pearson correlation of the two curves. -/
noncomputable def regionScore (qdata : List ℝ) (row : List ℂ) (lpf : List ℝ) : ℝ :=
  if (alignedModel row lpf).sum = 0 ∨ (alignedEmpirical qdata).sum = 0 then 0
  else pearsonr (alignedEmpirical qdata) (alignedModel row lpf)

/-- Restriction of the stacked model matrix to the selected regions
(line 301): `freq_model = freq_model[:, rois_with_MEG].transpose()`; row r
of the result is the curve of column rois[r] across the frequency rows. -/
def selectRegions (fm : List (List ℂ)) (rois : List ℕ) : List (List ℂ) :=
  rois.map fun r => fm.map fun frow => frow.getD r 0

/-- The per-region score array (lines 283, 302-314): err_min starts as
np.zeros(rois.shape) and the loop over the region labels n in rois writes
regionScore of FMEGdata[n] and row n of the restricted model matrix into
slot n. -/
noncomputable def errMinArr (FMEG : List (List ℝ)) (sel : List (List ℂ))
    (lpf : List ℝ) (rois : List ℕ) : List ℝ :=
  rois.foldl
    (fun acc n => acc.set n (regionScore (FMEG.getD n []) (sel.getD n []) lpf))
    (List.replicate rois.length 0)

/-- network_transfer_cost (spectral_graph.py lines 246-317): sweep the
transfer engine over the frequency bins (w = 2*pi*f, lines 284-298), stack
the region responses, restrict to the regions with MEG, score each region,
and return the negated mean of the score array (line 316). -/
noncomputable def network_transfer_cost
    (eigf : List (List ℂ) → List ℂ × List (List ℂ))
    (p : NTFParams) (C D : List (List ℚ)) (lpf : List ℝ)
    (FMEG : List (List ℝ)) (frange : List ℝ) (rois : List ℕ) : ℝ :=
  -(listMean (errMinArr FMEG
      (selectRegions
        (frange.map fun f =>
          (network_transfer_function eigf C D (2 * Real.pi * f) p).freqresp_out)
        rois)
      lpf rois))

/-- The model functional connectivity (lines 237-242):
`FCmodel = Vv[:,1:K] @ diag(freqresp[1:K]**2) @ Vv[:,1:K].T`, then
row/column normalised by `den = np.sqrt(np.abs(freqresp_out))` through
`diag(1/den) @ FCmodel @ diag(1/den)`; entry (i, j) is
(1/den[i]) * (sum over k = 1..K-1 of Vv[i,k]*freqresp[k]^2*Vv[j,k]) *
(1/den[j]).  On a region with exactly zero response numpy's 1/0 is inf
while the ℝ embedding's is 0; no stated property reads FCmodel values. -/
noncomputable def FCmodelF (fr : List ℂ) (Vv : List (List ℂ)) (fro : List ℂ)
    (K nroi : ℕ) : List (List ℂ) :=
  (List.range nroi).map fun i =>
    (List.range nroi).map fun j =>
      (((1 : ℝ) / Real.sqrt (Complex.abs (fro.getD i 0)) : ℝ) : ℂ) *
        (∑ k ∈ Finset.Ico 1 K,
          (Vv.getD k []).getD i 0 * (fr.getD k 0) ^ 2 * (Vv.getD k []).getD j 0) *
        (((1 : ℝ) / Real.sqrt (Complex.abs (fro.getD j 0)) : ℝ) : ℂ)

/-- network_transfer_function including the FCmodel assembly and its error
path (lines 237-243): when K <= 1 the aggregation loop never runs,
freqresp_out stays the Python scalar 0, `den = np.sqrt(np.abs(0))` is a 0-d
array and `np.diag(1/den)` at line 242 raises
`ValueError: Input must be 1- or 2-d.`, so no value is returned; otherwise
the function returns the four NTFOut fields together with FCmodel.  Other
library failure modes (eigensolver non-convergence) live inside the eigf
parameter and are not modelled. -/
noncomputable def network_transfer_function_checked
    (eigf : List (List ℂ) → List ℂ × List (List ℂ))
    (C D : List (List ℚ)) (w : ℝ) (p : NTFParams) :
    Option (NTFOut × List (List ℂ)) :=
  if numsmalleigs C.length ≤ 1 then none
  else
    some (network_transfer_function eigf C D w p,
      FCmodelF (network_transfer_function eigf C D w p).freqresp
        (network_transfer_function eigf C D w p).Vv
        (network_transfer_function eigf C D w p).freqresp_out
        (numsmalleigs C.length) C.length)

/-- network_transfer_cost including the propagated error path: the sweep of
lines 284-298 calls network_transfer_function once per frequency bin, so the
ValueError of line 242 aborts the whole cost evaluation whenever any bin is
processed with K <= 1; otherwise the scalar of line 316 is returned. -/
noncomputable def network_transfer_cost_checked
    (eigf : List (List ℂ) → List ℂ × List (List ℂ))
    (p : NTFParams) (C D : List (List ℚ)) (lpf : List ℝ)
    (FMEG : List (List ℝ)) (frange : List ℝ) (rois : List ℕ) : Option ℝ :=
  if frange.all fun f =>
      (network_transfer_function_checked eigf C D (2 * Real.pi * f) p).isSome then
    some (network_transfer_cost eigf p C D lpf FMEG frange rois)
  else none

/-- Subtracting a constant from every entry lowers the sum by length times
the constant. -/
lemma sum_map_sub_const (l : List ℝ) (c : ℝ) :
    (l.map fun t => t - c).sum = l.sum - l.length * c := by
  induction l with
  | nil => simp
  | cons x xs ih => simp [ih]; ring

/-- A mean-centered curve sums to exactly zero in exact arithmetic. -/
lemma sum_meanCenter (l : List ℝ) : (meanCenter l).sum = 0 := by
  rcases eq_or_ne l [] with rfl | h
  · simp [meanCenter]
  · have hn : (l.length : ℝ) ≠ 0 := by
      exact_mod_cast (List.length_pos.mpr h).ne'
    simp only [meanCenter, listMean, sum_map_sub_const]
    rw [mul_comm, div_mul_cancel₀ _ hn, sub_self]

/-- The processed model curve always sums to zero: the centering is the last
processing step before the zero-sum test. -/
lemma alignedModel_sum (row : List ℂ) (lpf : List ℝ) :
    (alignedModel row lpf).sum = 0 :=
  sum_meanCenter _

/-- Every per-region agreement score takes the degenerate branch in exact
arithmetic. -/
lemma regionScore_eq_zero (qdata : List ℝ) (row : List ℂ) (lpf : List ℝ) :
    regionScore qdata row lpf = 0 :=
  if_pos (Or.inl (alignedModel_sum row lpf))

/-- The score array consists entirely of zeros in exact arithmetic. -/
lemma errMinArr_all_zero (FMEG : List (List ℝ)) (sel : List (List ℂ))
    (lpf : List ℝ) (rois : List ℕ) :
    ∀ x ∈ errMinArr FMEG sel lpf rois, x = 0 := by
  unfold errMinArr
  have h : ∀ (rs : List ℕ) (acc : List ℝ), (∀ x ∈ acc, x = (0:ℝ)) →
      ∀ x ∈ rs.foldl
        (fun acc n => acc.set n (regionScore (FMEG.getD n []) (sel.getD n []) lpf))
        acc, x = 0 := by
    intro rs
    induction rs with
    | nil => intro acc hacc; simpa using hacc
    | cons n ns ih =>
      intro acc hacc x hx
      refine ih _ ?_ x hx
      intro y hy
      rcases List.mem_or_eq_of_mem_set hy with hmem | rfl
      · exact hacc y hmem
      · exact regionScore_eq_zero _ _ _
  exact h rois _ (by intro x hx; exact List.eq_of_mem_replicate hx)

/-- The cost function returns exactly zero on every input in exact
arithmetic. -/
lemma network_transfer_cost_eq_zero
    (eigf : List (List ℂ) → List ℂ × List (List ℂ)) (p : NTFParams)
    (C D : List (List ℚ)) (lpf : List ℝ) (FMEG : List (List ℝ))
    (frange : List ℝ) (rois : List ℕ) :
    network_transfer_cost eigf p C D lpf FMEG frange rois = 0 := by
  unfold network_transfer_cost listMean
  rw [List.sum_eq_zero (errMinArr_all_zero _ _ _ _)]
  simp

/-- C5: in exact arithmetic the model curve is mean-centered immediately
before the zero-sum test, so its sum is always exactly zero, the degenerate
branch fires for every region, every agreement score is 0, and the cost
function returns 0 on every input; the Pearson branch is reachable only
through rounding residue of the floating-point centering subtraction. -/
theorem C5_exact_arithmetic_cost_always_zero :
    (∀ (row : List ℂ) (lpf : List ℝ), (alignedModel row lpf).sum = 0) ∧
    (∀ (qdata : List ℝ) (row : List ℂ) (lpf : List ℝ),
      regionScore qdata row lpf = 0) ∧
    (∀ (eigf : List (List ℂ) → List ℂ × List (List ℂ)) (p : NTFParams)
      (C D : List (List ℚ)) (lpf : List ℝ) (FMEG : List (List ℝ))
      (frange : List ℝ) (rois : List ℕ),
      network_transfer_cost eigf p C D lpf FMEG frange rois = 0) :=
  ⟨alignedModel_sum, regionScore_eq_zero, network_transfer_cost_eq_zero⟩

/-- C2: per-region degenerate-curve handling: an all-zero-sum empirical row
is passed through without dB conversion or mean-centering, a nonzero-sum row
is dB-converted and centered; whenever either processed curve sums to
exactly zero the agreement score is exactly 0, and in full the score is the
branch between 0 and the Pearson correlation of the two processed curves. -/
theorem C2_degenerate_region_score (qdata : List ℝ) (row : List ℂ) (lpf : List ℝ) :
    (qdata.sum = 0 → alignedEmpirical qdata = qdata) ∧
    (qdata.sum ≠ 0 → alignedEmpirical qdata = meanCenter (mag2db qdata)) ∧
    ((alignedModel row lpf).sum = 0 ∨ (alignedEmpirical qdata).sum = 0 →
      regionScore qdata row lpf = 0) ∧
    regionScore qdata row lpf =
      (if (alignedModel row lpf).sum = 0 ∨ (alignedEmpirical qdata).sum = 0 then 0
       else pearsonr (alignedEmpirical qdata) (alignedModel row lpf)) := by
  refine ⟨fun h => ?_, fun h => ?_, fun h => if_pos h, rfl⟩
  · simp [alignedEmpirical, h]
  · simp [alignedEmpirical, h]

/-- Witness for C2 at a concrete degenerate input: the all-zero empirical
row [0] is passed through unchanged and the score of region ([0], [0]) with
kernel [1] is 0. -/
theorem C2_degenerate_region_score_witness :
    alignedEmpirical [(0:ℝ)] = [(0:ℝ)] ∧
    regionScore [(0:ℝ)] [(0:ℂ)] [(1:ℝ)] = 0 :=
  ⟨(C2_degenerate_region_score [(0:ℝ)] [(0:ℂ)] [(1:ℝ)]).1 (by simp),
   (C2_degenerate_region_score [(0:ℝ)] [(0:ℂ)] [(1:ℝ)]).2.2.1
     (Or.inl (alignedModel_sum _ _))⟩

/-- C8: the cost function is deterministic: two calls with identical
arguments (same parameters, connectome, distances, filter, empirical data,
frequency range and region set, under the same deterministic eigensolver)
return identical values; the embedding is a pure function with no hidden
state. -/
theorem C8_cost_deterministic
    (eigf : List (List ℂ) → List ℂ × List (List ℂ))
    (p1 p2 : NTFParams) (C1 C2 D1 D2 : List (List ℚ)) (lpf1 lpf2 : List ℝ)
    (F1 F2 : List (List ℝ)) (fr1 fr2 : List ℝ) (r1 r2 : List ℕ)
    (hp : p1 = p2) (hC : C1 = C2) (hD : D1 = D2) (hl : lpf1 = lpf2)
    (hF : F1 = F2) (hf : fr1 = fr2) (hr : r1 = r2) :
    network_transfer_cost eigf p1 C1 D1 lpf1 F1 fr1 r1 =
      network_transfer_cost eigf p2 C2 D2 lpf2 F2 fr2 r2 := by
  subst hp; subst hC; subst hD; subst hl; subst hF; subst hf; subst hr; rfl

/-- Witness for C8 at concrete arguments. -/
theorem C8_cost_deterministic_witness :
    network_transfer_cost (fun _ => ([], [])) ⟨0.012, 0.003, 1, 5, 4, 1, 0.006⟩
      [[1]] [[0]] [1] [[1]] [10] [0] =
    network_transfer_cost (fun _ => ([], [])) ⟨0.012, 0.003, 1, 5, 4, 1, 0.006⟩
      [[1]] [[0]] [1] [[1]] [10] [0] :=
  C8_cost_deterministic (fun _ => ([], [])) _ _ _ _ _ _ _ _ _ _ _ _ _ _
    rfl rfl rfl rfl rfl rfl rfl

/-- The full convolution has length M + N - 1. -/
lemma length_convolveFull (a v : List ℝ) :
    (convolveFull a v).length = a.length + v.length - 1 := by
  simp [convolveFull]

/-- C9 (amended): 'same'-mode convolution of a nonempty curve with a
nonempty kernel returns a vector of length max(M, N); in particular the
curve length M is preserved exactly when the kernel is no longer than the
curve. -/
theorem C9_conv_same_length (a v : List ℝ) (ha : a ≠ []) (hv : v ≠ []) :
    (convolveSame a v).length = max a.length v.length ∧
    (v.length ≤ a.length → (convolveSame a v).length = a.length) := by
  have hM : 1 ≤ a.length := List.length_pos.mpr ha
  have hN : 1 ≤ v.length := List.length_pos.mpr hv
  have hdiv : (min a.length v.length - 1) / 2 ≤ min a.length v.length - 1 :=
    Nat.div_le_self _ _
  constructor
  · simp only [convolveSame, List.length_take, List.length_drop, length_convolveFull]
    omega
  · intro hle
    simp only [convolveSame, List.length_take, List.length_drop, length_convolveFull]
    omega

/-- Witness for C9 at a concrete input: a length-3 curve convolved with the
length-1 kernel [1] keeps length 3. -/
theorem C9_conv_same_length_witness :
    (convolveSame [(1:ℝ), 2, 3] [(1:ℝ)]).length = max 3 1 ∧
    ((1:ℕ) ≤ 3 → (convolveSame [(1:ℝ), 2, 3] [(1:ℝ)]).length = 3) :=
  C9_conv_same_length [(1:ℝ), 2, 3] [(1:ℝ)] (by simp) (by simp)

/-- Counterexample to C9 as stated: the odd-length kernel [1, 1, 1] applied
to the length-1 model curve [1] returns a vector of length 3, not 1. -/
theorem C9_counterexample :
    (convolveSame [(1:ℝ)] [(1:ℝ), 1, 1]).length = 3 ∧ Odd (3:ℕ) ∧ (3:ℕ) ≠ 1 := by
  refine ⟨?_, by decide, by decide⟩
  simp [convolveSame, convolveFull]

/-- The retained mode count never exceeds the region count. -/
lemma numsmalleigs_le (n : ℕ) : numsmalleigs n ≤ n := by
  unfold numsmalleigs
  have h : round ((2 : ℚ) / 3 * n) ≤ (n : ℤ) := by
    rw [round_eq, Int.floor_le_iff]
    have hn : (0 : ℚ) ≤ (n : ℚ) := Nat.cast_nonneg n
    push_cast
    linarith
  exact Int.toNat_le.mpr h

/-- The sorting permutation has one index per eigenvalue. -/
lemma length_argsortRe (d : List ℂ) : (argsortRe d).length = d.length := by
  simp [argsortRe]

/-- The sorted eigenvalue list has the same length as the input. -/
lemma length_sorted_eig_val (d : List ℂ) : (sorted_eig_val d).length = d.length := by
  simp [sorted_eig_val, length_argsortRe]

/-- The permuted eigenvector list has one column per eigenvalue. -/
lemma length_sorted_eig_vec (d : List ℂ) (v : List (List ℂ)) :
    (sorted_eig_vec d v).length = d.length := by
  simp [sorted_eig_vec, length_argsortRe]

/-- The ev output is the sorted eigenvalue list truncated to K entries. -/
lemma ntf_ev (eigf : List (List ℂ) → List ℂ × List (List ℂ))
    (C D : List (List ℚ)) (w : ℝ) (p : NTFParams) :
    (network_transfer_function eigf C D w p).ev =
      (sorted_eig_val (eigf (laplacianMat C D p.speed w)).1).take
        (numsmalleigs C.length) := rfl

/-- The Vv output is the permuted eigenvector list truncated to K columns. -/
lemma ntf_Vv (eigf : List (List ℂ) → List ℂ × List (List ℂ))
    (C D : List (List ℚ)) (w : ℝ) (p : NTFParams) :
    (network_transfer_function eigf C D w p).Vv =
      (sorted_eig_vec (eigf (laplacianMat C D p.speed w)).1
        (eigf (laplacianMat C D p.speed w)).2).take (numsmalleigs C.length) := rfl

/-- The freqresp output is built elementwise over the retained eigenvalues. -/
lemma ntf_freqresp (eigf : List (List ℂ) → List ℂ × List (List ℂ))
    (C D : List (List ℚ)) (w : ℝ) (p : NTFParams) :
    (network_transfer_function eigf C D w p).freqresp =
      freqrespF (HtotalF w p)
        (clampPhase (q1F w p ((sorted_eig_val
          (eigf (laplacianMat C D p.speed w)).1).take (numsmalleigs C.length)))) := rfl

/-- C1 (amended): on the default truncated path the engine retains exactly
K = round(2/3 * N) eigenpairs for every N-region connectome whose
eigendecomposition yields N eigenvalues: the truncated eigenvalue list, the
per-mode frequency response and the eigenvector column list all have length
K; round, not floor, so at N = 4 the engine keeps K = 3 modes, not 2. -/
theorem C1_mode_truncation_lengths (N : ℕ) (_hN : 1 ≤ N)
    (eigf : List (List ℂ) → List ℂ × List (List ℂ))
    (C D : List (List ℚ)) (w : ℝ) (p : NTFParams)
    (hC : C.length = N)
    (hd : (eigf (laplacianMat C D p.speed w)).1.length = N) :
    (network_transfer_function eigf C D w p).ev.length = numsmalleigs N ∧
    (network_transfer_function eigf C D w p).freqresp.length = numsmalleigs N ∧
    (network_transfer_function eigf C D w p).Vv.length = numsmalleigs N := by
  have hK : numsmalleigs N ≤ N := numsmalleigs_le N
  refine ⟨?_, ?_, ?_⟩
  · rw [ntf_ev, List.length_take, length_sorted_eig_val, hd, hC]
    omega
  · rw [ntf_freqresp]
    simp only [freqrespF, clampPhase, q1F, List.length_map, List.length_take,
      length_sorted_eig_val, hd, hC]
    omega
  · rw [ntf_Vv, List.length_take, length_sorted_eig_vec, hd, hC]
    omega

/-- A constant stand-in for the external eigensolver on a 4-region
connectome, returning four eigenvalues and no columns. -/
def eigConst4 : List (List ℂ) → List ℂ × List (List ℂ) :=
  fun _ => ([0, 0, 0, 0], [])

/-- A concrete all-zero 4-by-4 connectome. -/
def zeros4Q : List (List ℚ) := [[0, 0, 0, 0], [0, 0, 0, 0], [0, 0, 0, 0], [0, 0, 0, 0]]

/-- The default parameter values of the network_transfer_function signature
(line 141): tau_e 0.012, tau_i 0.003, alpha 1, speed 5, gei 4, gii 1,
tauC 0.006. -/
noncomputable def pDefault : NTFParams := ⟨0.012, 0.003, 1, 5, 4, 1, 0.006⟩

/-- Witness for C1 at the concrete 4-region input. -/
theorem C1_mode_truncation_lengths_witness :
    (network_transfer_function eigConst4 zeros4Q zeros4Q 0 pDefault).ev.length =
      numsmalleigs 4 ∧
    (network_transfer_function eigConst4 zeros4Q zeros4Q 0 pDefault).freqresp.length =
      numsmalleigs 4 ∧
    (network_transfer_function eigConst4 zeros4Q zeros4Q 0 pDefault).Vv.length =
      numsmalleigs 4 :=
  C1_mode_truncation_lengths 4 (by decide) eigConst4 zeros4Q zeros4Q 0 pDefault
    (by decide) rfl

/-- At four regions the code rounds 8/3 up to three retained modes. -/
lemma numsmalleigs_four : numsmalleigs 4 = 3 := by
  unfold numsmalleigs
  have h : round ((2 : ℚ) / 3 * ((4 : ℕ) : ℚ)) = 3 := by
    rw [round_eq, show (2 : ℚ) / 3 * ((4 : ℕ) : ℚ) + 1 / 2 = 19 / 6 by push_cast; norm_num,
      Int.floor_eq_iff]
    norm_num
  rw [h]
  rfl

/-- Counterexample to C1 as stated: at N = 4 the engine keeps
K = round(8/3) = 3 eigenvalues, while floor(2/3 * 4) = 2. -/
theorem C1_counterexample :
    (network_transfer_function eigConst4 zeros4Q zeros4Q 0 pDefault).ev.length = 3 ∧
    Nat.floor ((2 : ℚ) / 3 * 4) = 2 ∧ (3 : ℕ) ≠ 2 := by
  refine ⟨?_, ?_, by decide⟩
  · rw [ntf_ev, List.length_take, length_sorted_eig_val,
      show zeros4Q.length = 4 from rfl, numsmalleigs_four,
      show (eigConst4 (laplacianMat zeros4Q zeros4Q pDefault.speed 0)).1.length = 4
        from rfl]
    decide
  · rw [show (2 : ℚ) / 3 * 4 = 8 / 3 by norm_num,
      Nat.floor_eq_iff (by norm_num)]
    norm_num

/-- Indexing the range of a list's length through getD reproduces the list. -/
lemma map_getD_range (d : List ℂ) :
    ((List.range d.length).map fun i => d.getD i 0) = d := by
  apply List.ext_getElem (by simp)
  intro i h1 h2
  simp [List.getD_eq_getElem?_getD, List.getElem?_eq_getElem h2]

/-- The sorted eigenvalue list is a permutation of the eigensolver output. -/
lemma sorted_eig_val_perm (d : List ℂ) : List.Perm (sorted_eig_val d) d := by
  unfold sorted_eig_val argsortRe
  refine ((List.mergeSort_perm (List.range d.length) _).map _).trans ?_
  rw [map_getD_range]

/-- The sorted eigenvalue list is ascending in the real part. -/
lemma sorted_eig_val_pairwise (d : List ℂ) :
    (sorted_eig_val d).Pairwise fun a b => a.re ≤ b.re := by
  unfold sorted_eig_val argsortRe
  rw [List.pairwise_map]
  refine List.Pairwise.imp ?_ (List.sorted_mergeSort ?_ ?_ (List.range d.length))
  · intro a b h
    exact of_decide_eq_true h
  · intro a b c hab hbc
    exact decide_eq_true (le_trans (of_decide_eq_true hab) (of_decide_eq_true hbc))
  · intro a b
    simp only [Bool.or_eq_true, decide_eq_true_eq]
    exact le_total _ _

/-- Pairwise order across a take/drop split. -/
lemma pairwise_take_drop {α : Type} (R : α → α → Prop) (l : List α) (K : ℕ)
    (h : l.Pairwise R) : ∀ x ∈ l.take K, ∀ y ∈ l.drop K, R x y := by
  have hsplit : (l.take K ++ l.drop K).Pairwise R := by
    rwa [List.take_append_drop]
  exact (List.pairwise_append.mp hsplit).2.2

/-- Truncation keeps the value at an in-range position. -/
lemma getD_take_of_lt {α : Type} (l : List α) (K j : ℕ) (hj : j < K) (a : α) :
    (l.take K).getD j a = l.getD j a := by
  rw [List.getD_eq_getElem?_getD, List.getD_eq_getElem?_getD,
    List.getElem?_take_of_lt hj]

/-- Mapping commutes with getD at an in-range position. -/
lemma getD_map_of_lt {α β : Type} (f : α → β) (l : List α) (n : ℕ)
    (hn : n < l.length) (b : β) (a : α) :
    (l.map f).getD n b = f (l.getD n a) := by
  rw [List.getD_eq_getElem?_getD, List.getD_eq_getElem?_getD, List.getElem?_map,
    List.getElem?_eq_getElem hn]
  rfl

/-- C6: on the default truncated path the eigenpairs are sorted ascending by
the real part of the eigenvalue (not by magnitude): the sorted eigenvalue
list is a permutation of the eigensolver output, ascending in real part, the
retained first K entries are below every dropped entry in real part, and at
every retained position both the eigenvalue and the eigenvector column are
drawn through the same sorting index. -/
theorem C6_sort_ascending_real_part
    (eigf : List (List ℂ) → List ℂ × List (List ℂ))
    (C D : List (List ℚ)) (w : ℝ) (p : NTFParams) :
    (network_transfer_function eigf C D w p).ev =
      (sorted_eig_val (eigf (laplacianMat C D p.speed w)).1).take
        (numsmalleigs C.length) ∧
    List.Perm (sorted_eig_val (eigf (laplacianMat C D p.speed w)).1)
      (eigf (laplacianMat C D p.speed w)).1 ∧
    (sorted_eig_val (eigf (laplacianMat C D p.speed w)).1).Pairwise
      (fun a b => a.re ≤ b.re) ∧
    (∀ x ∈ (sorted_eig_val (eigf (laplacianMat C D p.speed w)).1).take
        (numsmalleigs C.length),
      ∀ y ∈ (sorted_eig_val (eigf (laplacianMat C D p.speed w)).1).drop
        (numsmalleigs C.length), x.re ≤ y.re) ∧
    (∀ j, j < numsmalleigs C.length →
      j < (eigf (laplacianMat C D p.speed w)).1.length →
      (network_transfer_function eigf C D w p).ev.getD j 0 =
        (eigf (laplacianMat C D p.speed w)).1.getD
          ((argsortRe (eigf (laplacianMat C D p.speed w)).1).getD j 0) 0 ∧
      (network_transfer_function eigf C D w p).Vv.getD j [] =
        (eigf (laplacianMat C D p.speed w)).2.getD
          ((argsortRe (eigf (laplacianMat C D p.speed w)).1).getD j 0) []) := by
  refine ⟨ntf_ev eigf C D w p, sorted_eig_val_perm _, sorted_eig_val_pairwise _,
    pairwise_take_drop _ _ _ (sorted_eig_val_pairwise _), ?_⟩
  intro j hjK hjd
  have hidx : j < (argsortRe (eigf (laplacianMat C D p.speed w)).1).length := by
    rwa [length_argsortRe]
  constructor
  · rw [ntf_ev, getD_take_of_lt _ _ _ hjK, sorted_eig_val,
      getD_map_of_lt _ _ _ hidx _ 0]
  · rw [ntf_Vv, getD_take_of_lt _ _ _ hjK, sorted_eig_vec,
      getD_map_of_lt _ _ _ hidx _ 0]

/-- Witness for C6 at the concrete 4-region input, reading off the retained
pair at position 0 through the sorting index. -/
theorem C6_sort_ascending_real_part_witness :
    (network_transfer_function eigConst4 zeros4Q zeros4Q 0 pDefault).ev.getD 0 0 =
      (eigConst4 (laplacianMat zeros4Q zeros4Q pDefault.speed 0)).1.getD
        ((argsortRe (eigConst4 (laplacianMat zeros4Q zeros4Q pDefault.speed 0)).1).getD
          0 0) 0 ∧
    (network_transfer_function eigConst4 zeros4Q zeros4Q 0 pDefault).Vv.getD 0 [] =
      (eigConst4 (laplacianMat zeros4Q zeros4Q pDefault.speed 0)).2.getD
        ((argsortRe (eigConst4 (laplacianMat zeros4Q zeros4Q pDefault.speed 0)).1).getD
          0 0) [] :=
  (C6_sort_ascending_real_part eigConst4 zeros4Q zeros4Q 0 pDefault).2.2.2.2 0
    (by rw [show zeros4Q.length = 4 from rfl, numsmalleigs_four]; decide)
    (by decide)

/-- The running maximum of magnitudes is nonnegative. -/
lemma maxAbsList_nonneg (l : List ℂ) : 0 ≤ maxAbsList l := by
  unfold maxAbsList
  induction l with
  | nil => simp
  | cons x xs ih => simp only [List.map_cons, List.foldr_cons]; exact le_max_of_le_right ih

/-- The clamp threshold is nonnegative. -/
lemma qthrF_nonneg (q1 : List ℂ) : 0 ≤ qthrF q1 :=
  mul_nonneg (by norm_num) (maxAbsList_nonneg q1)

/-- Core property of the magnitude clamp on one complex value: the clamped
value has magnitude max(|z|, t), has exactly the argument of z, and is left
unchanged when |z| already meets the threshold. -/
lemma clamp_core (z : ℂ) (t : ℝ) :
    Complex.abs (((max (Complex.abs z) t : ℝ) : ℂ) *
        Complex.exp (Complex.I * ((Complex.arg z : ℝ) : ℂ))) =
      max (Complex.abs z) t ∧
    Complex.arg (((max (Complex.abs z) t : ℝ) : ℂ) *
        Complex.exp (Complex.I * ((Complex.arg z : ℝ) : ℂ))) =
      Complex.arg z ∧
    (t ≤ Complex.abs z →
      ((max (Complex.abs z) t : ℝ) : ℂ) *
          Complex.exp (Complex.I * ((Complex.arg z : ℝ) : ℂ)) = z) := by
  have hmax : 0 ≤ max (Complex.abs z) t := (Complex.abs.nonneg z).trans (le_max_left _ _)
  refine ⟨?_, ?_, ?_⟩
  · rw [map_mul, Complex.abs_ofReal, abs_of_nonneg hmax, mul_comm Complex.I,
      Complex.abs_exp_ofReal_mul_I, mul_one]
  · rcases eq_or_lt_of_le hmax with h0 | hpos
    · have habs : Complex.abs z = 0 :=
        le_antisymm (h0 ▸ le_max_left _ _) (Complex.abs.nonneg z)
      have hz : z = 0 := Complex.abs.eq_zero.mp habs
      rw [← h0, Complex.ofReal_zero, zero_mul, hz]
    · rw [Complex.arg_real_mul _ hpos, mul_comm Complex.I, Complex.exp_mul_I]
      exact Complex.arg_cos_add_sin_mul_I (Complex.arg_mem_Ioc z)
  · intro h
    rw [max_eq_left h, mul_comm Complex.I]
    exact Complex.abs_mul_exp_arg_mul_I z

/-- C7: for every mode k the clamped coupling term has magnitude
max(|q1[k]|, 0.05 * max over modes of |q1|) and exactly the phase of the
unclamped q1[k]; it is unchanged whenever its magnitude already meets the
threshold, and the per-mode response divides Htotal by the clamped value. -/
theorem C7_coupling_clamp_preserves_phase (w : ℝ) (p : NTFParams)
    (ev : List ℂ) (k : ℕ) (hk : k < ev.length) :
    Complex.abs ((clampPhase (q1F w p ev)).getD k 0) =
      max (Complex.abs ((q1F w p ev).getD k 0)) (qthrF (q1F w p ev)) ∧
    Complex.arg ((clampPhase (q1F w p ev)).getD k 0) =
      Complex.arg ((q1F w p ev).getD k 0) ∧
    (qthrF (q1F w p ev) ≤ Complex.abs ((q1F w p ev).getD k 0) →
      (clampPhase (q1F w p ev)).getD k 0 = (q1F w p ev).getD k 0) ∧
    (freqrespF (HtotalF w p) (clampPhase (q1F w p ev))).getD k 0 =
      HtotalF w p / (clampPhase (q1F w p ev)).getD k 0 := by
  have hq : k < (q1F w p ev).length := by simpa [q1F] using hk
  have hc : (clampPhase (q1F w p ev)).getD k 0 =
      ((max (Complex.abs ((q1F w p ev).getD k 0)) (qthrF (q1F w p ev)) : ℝ) : ℂ) *
        Complex.exp (Complex.I * ((Complex.arg ((q1F w p ev).getD k 0) : ℝ) : ℂ)) := by
    unfold clampPhase
    rw [getD_map_of_lt _ _ _ hq _ 0]
  have hcl := clamp_core ((q1F w p ev).getD k 0) (qthrF (q1F w p ev))
  refine ⟨?_, ?_, fun h => ?_, ?_⟩
  · rw [hc]; exact hcl.1
  · rw [hc]; exact hcl.2.1
  · rw [hc]; exact hcl.2.2 h
  · have hck : k < (clampPhase (q1F w p ev)).length := by simpa [clampPhase] using hq
    unfold freqrespF
    rw [getD_map_of_lt _ _ _ hck _ 0]

/-- Witness for C7 at the concrete single-mode input. -/
theorem C7_coupling_clamp_preserves_phase_witness :
    Complex.abs ((clampPhase (q1F 0 pDefault [0])).getD 0 0) =
      max (Complex.abs ((q1F 0 pDefault [0]).getD 0 0)) (qthrF (q1F 0 pDefault [0])) ∧
    Complex.arg ((clampPhase (q1F 0 pDefault [0])).getD 0 0) =
      Complex.arg ((q1F 0 pDefault [0]).getD 0 0) ∧
    (qthrF (q1F 0 pDefault [0]) ≤ Complex.abs ((q1F 0 pDefault [0]).getD 0 0) →
      (clampPhase (q1F 0 pDefault [0])).getD 0 0 = (q1F 0 pDefault [0]).getD 0 0) ∧
    (freqrespF (HtotalF 0 pDefault) (clampPhase (q1F 0 pDefault [0]))).getD 0 0 =
      HtotalF 0 pDefault / (clampPhase (q1F 0 pDefault [0])).getD 0 0 :=
  C7_coupling_clamp_preserves_phase 0 pDefault [0] 0 (by decide)

/-- getD on a range list returns the index itself when in range. -/
lemma getD_range_of_lt (n i : ℕ) (hi : i < n) : (List.range n).getD i 0 = i := by
  rw [List.getD_eq_getElem?_getD, List.getElem?_eq_getElem (by simpa using hi)]
  simp

/-- Entry formula of the assembled Laplacian:
L[i, j] = 0.8*[i = j] - L2[i]*Cc[i, j] for in-range indices. -/
lemma laplacianMat_entry (C D : List (List ℚ)) (speed w : ℝ) (i j : ℕ)
    (hi : i < C.length) (hj : j < C.length) :
    ((laplacianMat C D speed w).getD i []).getD j 0 =
      (if i = j then (0.8 : ℂ) else 0) -
        (normTerm C i : ℝ) * delayedC C D speed w i j := by
  unfold laplacianMat
  rw [getD_map_of_lt _ _ i (by simpa using hi) [] 0, getD_range_of_lt _ _ hi,
    getD_map_of_lt _ _ j (by simpa using hj) 0 0, getD_range_of_lt _ _ hj]

/-- C4: a region whose combined degree falls below 20 percent of the mean
combined degree has Laplacian normalisation contribution exactly 0: every
off-diagonal entry of its row of L vanishes and its diagonal entry is
exactly the 0.8 of the identity term, for every distance matrix, speed and
frequency. -/
theorem C4_degree_mask_row_zero (C D : List (List ℚ)) (speed w : ℝ) (i : ℕ)
    (hi : i < C.length) (hq : qind C i = true) :
    (∀ j, j < C.length → j ≠ i →
      ((laplacianMat C D speed w).getD i []).getD j 0 = 0) ∧
    ((laplacianMat C D speed w).getD i []).getD i 0 = 0.8 := by
  have hnt : normTerm C i = 0 := by
    unfold normTerm
    rw [if_pos hq]
  constructor
  · intro j hj hne
    rw [laplacianMat_entry C D speed w i j hi hj, hnt,
      if_neg fun h => hne h.symm]
    simp
  · rw [laplacianMat_entry C D speed w i i hi hi, hnt]
    simp

/-- A concrete 2-region connectome whose first region has combined degree 0,
below 20 percent of the mean combined degree 10. -/
def maskC2 : List (List ℚ) := [[0, 0], [0, 10]]

/-- A concrete all-zero 2-by-2 distance matrix. -/
def zeros2Q : List (List ℚ) := [[0, 0], [0, 0]]

/-- Region 0 of the concrete connectome is masked: its combined degree 0 is
below 20 percent of the mean combined degree 10. -/
lemma qind_maskC2_zero : qind maskC2 0 = true := by
  simp only [qind, meanCombinedDegree, combinedDegree, rowdegree, coldegree,
    maskC2, List.range_succ, List.range_zero, List.map_cons, List.map_nil,
    List.sum_cons, List.sum_nil, List.getD_cons_zero, List.getD_cons_succ,
    List.length_cons, List.length_nil, decide_eq_true_eq]
  norm_num

/-- Witness for C4 at the concrete masked region 0: its off-diagonal entry
is 0 and its diagonal entry is 0.8. -/
theorem C4_degree_mask_row_zero_witness :
    ((laplacianMat maskC2 zeros2Q 1 0).getD 0 []).getD 1 0 = 0 ∧
    ((laplacianMat maskC2 zeros2Q 1 0).getD 0 []).getD 0 0 = 0.8 :=
  ⟨(C4_degree_mask_row_zero maskC2 zeros2Q 1 0 0 (by decide) qind_maskC2_zero).1 1
      (by decide) (by decide),
    (C4_degree_mask_row_zero maskC2 zeros2Q 1 0 0 (by decide) qind_maskC2_zero).2⟩

/-- At three regions the code rounds 2 to two retained modes; this is the
smallest region count on which the aggregation loop runs, freqresp_out is a
1-d array and line 242 executes without raising. -/
lemma numsmalleigs_three : numsmalleigs 3 = 2 := by
  unfold numsmalleigs
  have h : round ((2 : ℚ) / 3 * ((3 : ℕ) : ℚ)) = 2 := by
    rw [round_eq, show (2 : ℚ) / 3 * ((3 : ℕ) : ℚ) + 1 / 2 = 5 / 2 by push_cast; norm_num,
      Int.floor_eq_iff]
    norm_num
  rw [h]
  rfl

/-- A stand-in for the external eigensolver on the 3-region all-zero
connectome, whose Laplacian is 0.8 times the identity: eigenvalue 0.8 with
multiplicity three and the identity eigenvector columns. -/
noncomputable def eigConst3 : List (List ℂ) → List ℂ × List (List ℂ) :=
  fun _ => ([0.8, 0.8, 0.8], [[1, 0, 0], [0, 1, 0], [0, 0, 1]])

/-- A concrete 3-by-3 all-zero connectome: K = round(2) = 2 retained modes
keep the real code on the crash-free path through line 243. -/
def zeros3Q : List (List ℚ) := [[0, 0, 0], [0, 0, 0], [0, 0, 0]]

/-- A concrete identity lowpass kernel. -/
def lpf0 : List ℝ := [1]

/-- A concrete one-region empirical matrix with the nonzero single-bin
row [1]. -/
def FMEG3 : List (List ℝ) := [[1]]

/-- A concrete single frequency bin. -/
def frange0 : List ℝ := [10]

/-- The single region carrying data in the concrete scenario. -/
def rois0 : List ℕ := [0]

/-- Mean-centering a single-bin curve yields [0] whatever its value. -/
lemma meanCenter_singleton (c : ℝ) : meanCenter [c] = [0] := by
  unfold meanCenter listMean
  simp

/-- The 'same' convolution of a single-bin curve with the kernel [1] is the
curve itself. -/
lemma convolveSame_singleton_one (a : ℝ) : convolveSame [a] [(1 : ℝ)] = [a] := by
  unfold convolveSame convolveFull
  simp [List.range_succ]

/-- A single-bin model curve aligns to [0] whatever its complex value: the
convolved dB curve is a singleton, and centering a singleton zeroes it. -/
lemma alignedModel_single_bin (z : ℂ) : alignedModel [z] lpf0 = [0] := by
  unfold alignedModel
  rw [show ([z].map Complex.abs) = [Complex.abs z] by simp,
    show lpf0 = [(1 : ℝ)] from rfl, convolveSame_singleton_one,
    show mag2db [Complex.abs z] = [20 * Real.logb 10 (Complex.abs z)] from rfl,
    meanCenter_singleton]

/-- The single-bin empirical row [1] sums to 1, so it is dB-converted and
mean-centered, which zeroes the singleton. -/
lemma alignedEmpirical_one : alignedEmpirical [(1 : ℝ)] = [0] := by
  unfold alignedEmpirical
  rw [if_pos (by simp), show mag2db [(1 : ℝ)] = [20 * Real.logb 10 1] from rfl,
    meanCenter_singleton]

/-- In the concrete scenario the processed curves match elementwise for the
single region with data: the selected row is a single-bin curve, and both it
and the empirical row center to [0]. -/
lemma scenario3_match :
    ∀ n ∈ rois0,
      alignedEmpirical (FMEG3.getD n []) =
        alignedModel
          ((selectRegions
            (frange0.map fun f =>
              (network_transfer_function eigConst3 zeros3Q zeros3Q
                (2 * Real.pi * f) pDefault).freqresp_out)
            rois0).getD n []) lpf0 := by
  intro n hn
  have hn0 : n = 0 := by simpa [rois0] using hn
  subst hn0
  have hsel : (selectRegions
      (frange0.map fun f =>
        (network_transfer_function eigConst3 zeros3Q zeros3Q
          (2 * Real.pi * f) pDefault).freqresp_out)
      rois0).getD 0 [] =
      [((network_transfer_function eigConst3 zeros3Q zeros3Q
          (2 * Real.pi * (10 : ℝ)) pDefault).freqresp_out).getD 0 0] := by
    simp [frange0, rois0, selectRegions]
  rw [hsel, alignedModel_single_bin,
    show FMEG3.getD 0 [] = [(1 : ℝ)] from rfl, alignedEmpirical_one]

/-- The scenario stays on the non-raising path of the checked cost and
returns the value 0: with three regions K = 2, so no frequency bin hits the
line-242 ValueError. -/
lemma scenario3_checked :
    network_transfer_cost_checked eigConst3 pDefault zeros3Q zeros3Q lpf0 FMEG3
      frange0 rois0 = some 0 := by
  have hall : (frange0.all fun f =>
      (network_transfer_function_checked eigConst3 zeros3Q zeros3Q
        (2 * Real.pi * f) pDefault).isSome) = true := by
    unfold frange0
    rw [List.all_cons, List.all_nil]
    unfold network_transfer_function_checked
    rw [if_neg (by rw [show zeros3Q.length = 3 from rfl, numsmalleigs_three]; decide)]
    rfl
  unfold network_transfer_cost_checked
  rw [if_pos hall, network_transfer_cost_eq_zero]

/-- C3 (amended): network_transfer_cost returns the negated mean of the
per-region agreement scores over rois_with_MEG; however, because the model
curve is mean-centered immediately before the zero-sum test, in exact
arithmetic a perfect elementwise match of the aligned curves yields
agreement score 0 for every region and returned cost 0, not -1. -/
theorem C3_cost_negated_mean
    (eigf : List (List ℂ) → List ℂ × List (List ℂ)) (p : NTFParams)
    (C D : List (List ℚ)) (lpf : List ℝ) (FMEG : List (List ℝ))
    (frange : List ℝ) (rois : List ℕ) :
    network_transfer_cost eigf p C D lpf FMEG frange rois =
      -listMean (errMinArr FMEG
        (selectRegions
          (frange.map fun f =>
            (network_transfer_function eigf C D (2 * Real.pi * f) p).freqresp_out)
          rois) lpf rois) ∧
    ((∀ n ∈ rois,
        alignedEmpirical (FMEG.getD n []) =
          alignedModel
            ((selectRegions
              (frange.map fun f =>
                (network_transfer_function eigf C D (2 * Real.pi * f) p).freqresp_out)
              rois).getD n []) lpf) →
      (∀ n ∈ rois,
        regionScore (FMEG.getD n [])
          ((selectRegions
            (frange.map fun f =>
              (network_transfer_function eigf C D (2 * Real.pi * f) p).freqresp_out)
            rois).getD n []) lpf = 0) ∧
      network_transfer_cost eigf p C D lpf FMEG frange rois = 0) :=
  ⟨rfl, fun _ =>
    ⟨fun _ _ => regionScore_eq_zero _ _ _,
      network_transfer_cost_eq_zero eigf p C D lpf FMEG frange rois⟩⟩

/-- Witness for C3 at the concrete perfect-match scenario: the cost is 0. -/
theorem C3_cost_negated_mean_witness :
    network_transfer_cost eigConst3 pDefault zeros3Q zeros3Q lpf0 FMEG3
      frange0 rois0 = 0 :=
  ((C3_cost_negated_mean eigConst3 pDefault zeros3Q zeros3Q lpf0 FMEG3
      frange0 rois0).2 scenario3_match).2

/-- Counterexample to C3 as stated: a concrete 3-region input (K = 2, so the
real code runs crash-free through the FCmodel assembly of lines 237-242 and
returns) on which the aligned model curve equals the aligned empirical curve
for the single region with data, yet the returned cost is 0 — also along
the checked error path — and not the claimed -1. -/
theorem C3_counterexample :
    alignedEmpirical (FMEG3.getD 0 []) =
      alignedModel
        ((selectRegions
          (frange0.map fun f =>
            (network_transfer_function eigConst3 zeros3Q zeros3Q
              (2 * Real.pi * f) pDefault).freqresp_out)
          rois0).getD 0 []) lpf0 ∧
    network_transfer_cost eigConst3 pDefault zeros3Q zeros3Q lpf0 FMEG3
      frange0 rois0 = 0 ∧
    network_transfer_cost_checked eigConst3 pDefault zeros3Q zeros3Q lpf0 FMEG3
      frange0 rois0 = some 0 ∧
    (0 : ℝ) ≠ -1 :=
  ⟨scenario3_match 0 (by simp [rois0]),
    network_transfer_cost_eq_zero _ _ _ _ _ _ _ _,
    scenario3_checked, by norm_num⟩

/-- The model row the loop body reads for region label n: position n of the
already-restricted matrix (lines 301, 308). -/
def loopModelRow (fm : List (List ℂ)) (rois : List ℕ) (n : ℕ) : List ℂ :=
  (selectRegions fm rois).getD n []

/-- Region n's own response curve: column n of the stacked model matrix. -/
def ownCurve (fm : List (List ℂ)) (n : ℕ) : List ℂ :=
  fm.map fun frow => frow.getD n 0

/-- The restricted matrix has one row per entry of rois. -/
lemma length_selectRegions (fm : List (List ℂ)) (rois : List ℕ) :
    (selectRegions fm rois).length = rois.length := by
  simp [selectRegions]

/-- The score array keeps one slot per entry of rois. -/
lemma length_errMinArr (FMEG : List (List ℝ)) (sel : List (List ℂ))
    (lpf : List ℝ) (rois : List ℕ) :
    (errMinArr FMEG sel lpf rois).length = rois.length := by
  unfold errMinArr
  have h : ∀ (rs : List ℕ) (acc : List ℝ),
      (rs.foldl
        (fun acc n => acc.set n (regionScore (FMEG.getD n []) (sel.getD n []) lpf))
        acc).length = acc.length := by
    intro rs
    induction rs with
    | nil => intro acc; rfl
    | cons r rest ih => intro acc; rw [List.foldl_cons, ih, List.length_set]
  rw [h, List.length_replicate]

/-- Reading the restricted matrix of the canonical label list 0..m-1 at
label n returns region n's own curve. -/
lemma loopModelRow_range (m : ℕ) (fm : List (List ℂ)) (n : ℕ) (hn : n < m) :
    loopModelRow fm (List.range m) n = ownCurve fm n := by
  unfold loopModelRow selectRegions ownCurve
  rw [getD_map_of_lt _ _ n (by simpa using hn) [] 0, getD_range_of_lt _ _ hn]

/-- A duplicate-free label list that is in range and fixed under its own
indexing is the canonical list 0..m-1. -/
lemma range_of_getD_fixed (rois : List ℕ) (hnd : rois.Nodup)
    (h : ∀ n ∈ rois, n < rois.length ∧ rois.getD n 0 = n) :
    rois = List.range rois.length := by
  have hsub : rois.toFinset ⊆ Finset.range rois.length := by
    intro k hk
    rw [List.mem_toFinset] at hk
    exact Finset.mem_range.mpr (h k hk).1
  have hcard : (Finset.range rois.length).card ≤ rois.toFinset.card := by
    rw [Finset.card_range, List.toFinset_card_of_nodup hnd]
  have heq : rois.toFinset = Finset.range rois.length :=
    Finset.eq_of_subset_of_card_le hsub hcard
  have hmem : ∀ k, k < rois.length → k ∈ rois := by
    intro k hk
    rw [← List.mem_toFinset, heq]
    exact Finset.mem_range.mpr hk
  apply List.ext_getElem (by simp)
  intro i h1 h2
  have hfix := (h i (hmem i h1)).2
  rw [List.getD_eq_getElem?_getD, List.getElem?_eq_getElem h1] at hfix
  simp only [Option.getD_some] at hfix
  rw [List.getElem_range]
  exact hfix

/-- If the loop body reads each region's own curve for every model matrix,
then every label is in range and the label list is fixed under its own
indexing. -/
lemma fixed_of_ownCurve (rois : List ℕ)
    (H : ∀ fm : List (List ℂ), ∀ n ∈ rois, loopModelRow fm rois n = ownCurve fm n) :
    ∀ n ∈ rois, n < rois.length ∧ rois.getD n 0 = n := by
  intro n hn
  have hnB : n < rois.sum + 1 :=
    Nat.lt_succ_of_le (List.single_le_sum (fun x _ => Nat.zero_le x) n hn)
  have hrow : ∀ r, r < rois.sum + 1 →
      ((List.range (rois.sum + 1)).map (Nat.cast : ℕ → ℂ)).getD r 0 = (r : ℂ) := by
    intro r hr
    rw [getD_map_of_lt (Nat.cast : ℕ → ℂ) (List.range (rois.sum + 1)) r
      (by simpa using hr) 0 0, getD_range_of_lt _ _ hr]
  have hown : ownCurve [(List.range (rois.sum + 1)).map (Nat.cast : ℕ → ℂ)] n =
      [(n : ℂ)] := by
    unfold ownCurve
    simp only [List.map_cons, List.map_nil]
    rw [hrow n hnB]
  have hH := H [(List.range (rois.sum + 1)).map (Nat.cast : ℕ → ℂ)] n hn
  rw [hown] at hH
  unfold loopModelRow selectRegions at hH
  by_cases hlen : n < rois.length
  · refine ⟨hlen, ?_⟩
    rw [getD_map_of_lt _ _ n (by simpa using hlen) [] 0] at hH
    simp only [List.map_cons, List.map_nil] at hH
    have hidx : rois.getD n 0 = rois[n] := by
      rw [List.getD_eq_getElem?_getD, List.getElem?_eq_getElem hlen]
      rfl
    have hr0 : rois.getD n 0 ∈ rois := by
      rw [hidx]
      exact List.getElem_mem hlen
    have hr0B : rois.getD n 0 < rois.sum + 1 :=
      Nat.lt_succ_of_le (List.single_le_sum (fun x _ => Nat.zero_le x) _ hr0)
    rw [hrow _ hr0B] at hH
    simp only [List.cons.injEq, and_true] at hH
    exact_mod_cast hH
  · exfalso
    rw [List.getD_eq_getElem?_getD,
      List.getElem?_eq_none (by simpa using le_of_not_lt hlen)] at hH
    simp at hH

/-- C10 (amended): the restricted model matrix and the score array both have
exactly |rois| slots, so every labelled access of the per-region loop is in
bounds iff every label in rois_with_MEG is below |rois|; and, provided the
labels are pairwise distinct, the loop reads each region's own response for
every model matrix exactly when rois_with_MEG is the canonical list
0..m-1 (with duplicate labels the own-response alignment can also hold for
non-canonical lists). -/
theorem C10_roi_label_indexing (rois : List ℕ) :
    (∀ fm : List (List ℂ), (selectRegions fm rois).length = rois.length) ∧
    (∀ (FMEG : List (List ℝ)) (fm : List (List ℂ)) (lpf : List ℝ),
      (errMinArr FMEG (selectRegions fm rois) lpf rois).length = rois.length) ∧
    (∀ fm : List (List ℂ),
      ((∀ n ∈ rois, n < (selectRegions fm rois).length) ↔
        ∀ n ∈ rois, n < rois.length)) ∧
    (rois.Nodup →
      ((∀ fm : List (List ℂ), ∀ n ∈ rois, loopModelRow fm rois n = ownCurve fm n) ↔
        rois = List.range rois.length)) := by
  refine ⟨fun fm => length_selectRegions fm rois,
    fun FMEG fm lpf => length_errMinArr FMEG (selectRegions fm rois) lpf rois,
    fun fm => by simp only [length_selectRegions],
    fun hnd => ⟨fun H => range_of_getD_fixed rois hnd (fixed_of_ownCurve rois H),
      fun hr fm n hn => ?_⟩⟩
  have hn' : n < rois.length := by
    rw [hr] at hn
    simpa using hn
  rw [hr]
  exact loopModelRow_range rois.length fm n hn'

/-- A concrete model matrix with one frequency row and two region columns. -/
def fmDup : List (List ℂ) := [[5, 7]]

/-- Witness for C10 with the duplicate-free canonical label list [0, 1]:
the loop reads region 0's own curve. -/
theorem C10_roi_label_indexing_witness :
    loopModelRow fmDup [0, 1] 0 = ownCurve fmDup 0 :=
  (((C10_roi_label_indexing [0, 1]).2.2.2 (by decide)).mpr (by decide)) fmDup 0
    (by decide)

/-- Counterexample to C10 as stated: with the duplicate label list [0, 0]
the loop reads each listed region's own response for every region label it
visits, yet [0, 0] is not the canonical list 0..1. -/
theorem C10_counterexample :
    loopModelRow fmDup [0, 0] 0 = ownCurve fmDup 0 ∧
    ([0, 0] : List ℕ) ≠ List.range 2 := by
  constructor
  · rfl
  · decide

end Spectrome
